import Mathlib

/-!
Verification of the in-memory YAML value model of this repository:
the `Value` sum type, its typed accessors, the generic indexing
capability (`src/value/index.rs`) and the merge-key resolver
`Value::apply_merge` (`src/value/mod.rs`).

External collaborators (`Number`, the ordered `Mapping` container and
the `untag` helper of `tagged.rs`) are not part of the provided source
tree; they are modelled from the specification, and each such
definition carries a doc comment saying so.
-/

/-- Modelled from the spec: the external `Number` collaborator
(`number.rs` is not part of the provided sources).  An opaque numeric
type holding either an unsigned integer, a negative signed integer, or
a floating point number, with narrowing conversions to the
signed/unsigned/floating forms.  The floating payload is modelled as a
rational; none of the verified claims depend on float arithmetic. -/
inductive Number where
  | posInt (n : Nat)
  | negInt (n : Int)
  | float (q : Rat)
deriving DecidableEq, Repr

/-- Represents any valid YAML value (`enum Value`, `src/value/mod.rs`).
A `Mapping` is an insertion-ordered association list of key/value
pairs; a `Tagged` value pairs a tag identifier with one inner value. -/
inductive Value where
  | null
  | bool (b : Bool)
  | number (n : Number)
  | str (s : String)
  | sequence (xs : List Value)
  | mapping (m : List (Value × Value))
  | tagged (tag : String) (v : Value)
deriving Repr

/-- A YAML sequence (`pub type Sequence = Vec<Value>`). -/
abbrev Sequence := List Value

/-- Modelled from the spec: the external ordered `Mapping` container
(`mapping.rs` is not part of the provided sources): an
insertion-ordered key-to-value container with keys unique by value
equality. -/
abbrev Mapping := List (Value × Value)

mutual

/-- Size of a value (number of constructors), used as the termination
measure for the traversals below. -/
def sizeV : Value → Nat
  | .sequence xs => 1 + sizeL xs
  | .mapping m => 1 + sizeP m
  | .tagged _ v => 1 + sizeV v
  | _ => 1
termination_by v => sizeOf v
decreasing_by all_goals (simp_wf; try omega)

/-- Size of a list of values. -/
def sizeL : List Value → Nat
  | [] => 0
  | x :: xs => 1 + sizeV x + sizeL xs
termination_by xs => sizeOf xs
decreasing_by all_goals (simp_wf; try omega)

/-- Size of a list of mapping entries. -/
def sizeP : List (Value × Value) → Nat
  | [] => 0
  | (k, v) :: ps => 1 + sizeV k + sizeV v + sizeP ps
termination_by ps => sizeOf ps
decreasing_by all_goals (simp_wf; try omega)

end

/-- Equality on numbers: same numeric form and equal payload
(modelled from the spec, which leaves the numeric equality policy to
the `Number` collaborator; cross-form comparisons are unequal). -/
def numberEq : Number → Number → Bool
  | .posInt a, .posInt b => a == b
  | .negInt a, .negInt b => a == b
  | .float a, .float b => a == b
  | _, _ => false

mutual

/-- Structural equality of values (`derive PartialEq` on `Value`):
two values are equal iff they are the same variant with equal payload.
Mapping payloads compare as maps: equal size and every entry of the
left occurs in the right (modelled from the spec, which states that
insertion order does not affect mapping equality). -/
def valueEq : Value → Value → Bool
  | .null, .null => true
  | .bool a, .bool b => a == b
  | .number a, .number b => numberEq a b
  | .str a, .str b => a == b
  | .sequence a, .sequence b => listEq a b
  | .mapping a, .mapping b => (a.length == b.length) && subMap a b
  | .tagged t a, .tagged u b => (t == u) && valueEq a b
  | _, _ => false
termination_by a b => sizeOf a + sizeOf b
decreasing_by all_goals (simp_wf; try omega)

/-- Pointwise equality of value lists (`PartialEq` on `Vec<Value>`). -/
def listEq : List Value → List Value → Bool
  | [], [] => true
  | a :: as_, b :: bs => valueEq a b && listEq as_ bs
  | _, _ => false
termination_by a b => sizeOf a + sizeOf b
decreasing_by all_goals (simp_wf; try omega)

/-- Every entry of the first entry list occurs (key and value equal)
in the second. -/
def subMap : List (Value × Value) → List (Value × Value) → Bool
  | [], _ => true
  | (k, v) :: rest, b => hasEntry k v b && subMap rest b
termination_by a b => sizeOf a + sizeOf b
decreasing_by all_goals (simp_wf; try omega)

/-- Does the entry list contain an entry whose key equals `k` and
whose value equals `v`? -/
def hasEntry (k v : Value) : List (Value × Value) → Bool
  | [] => false
  | (k', v') :: rest => (valueEq k k' && valueEq v v') || hasEntry k v rest
termination_by b => sizeOf k + sizeOf v + sizeOf b
decreasing_by all_goals (simp_wf; try omega)

end

/-- Mapping lookup (`Mapping::get`): the value of the first entry
whose key equals `k`.  Modelled from the spec: the external `Mapping`
container looks entries up by value equality (keys are unique, so at
most one entry matches). -/
def mapGet (m : Mapping) (k : Value) : Option Value :=
  match m with
  | [] => none
  | (k', v) :: rest => if valueEq k' k then some v else mapGet rest k

/-- Does the mapping contain the key `k`? (`Mapping::contains_key`). -/
def containsKey (m : Mapping) (k : Value) : Bool :=
  match m with
  | [] => false
  | (k', _) :: rest => valueEq k' k || containsKey rest k

/-- `mapping.entry(k).or_insert(v)` as a map transformer: if `k` is
already present the mapping is unchanged, otherwise `(k, v)` is
appended at the end (the spec's insert-or-fetch-by-key preserving
insertion order).  The fetched slot itself is recovered through
`mapGet`. -/
def orInsert (m : Mapping) (k v : Value) : Mapping :=
  if containsKey m k then m else m ++ [(k, v)]

/-- `Mapping::remove(k)`: returns the removed value (if any) together
with the remaining mapping.  Modelled from the spec: remove-by-key on
the external ordered container; the remainder keeps the other entries
in insertion order. -/
def mapRemove (m : Mapping) (k : Value) : Option Value × Mapping :=
  match m with
  | [] => (none, [])
  | (k', v) :: rest =>
    if valueEq k' k then (some v, rest)
    else
      let (r, rest') := mapRemove rest k
      (r, (k', v) :: rest')

/-- The body of `for (k, v) in merge { mapping.entry(k).or_insert(v) }`
in `Value::apply_merge`: fold the entries of `src` into `m`, inserting
each only if its key is absent. -/
def mergeInto (m : Mapping) (src : Mapping) : Mapping :=
  match src with
  | [] => m
  | (k, v) :: rest => mergeInto (orInsert m k v) rest

/-- Errors produced by `Value::apply_merge` (`ErrorImpl`). -/
inductive MergeError where
  | sequenceInMergeElement
  | taggedInMerge
  | scalarInMergeElement
  | scalarInMerge
deriving DecidableEq, Repr

/-- The `Some(Value::Sequence(sequence))` arm of `apply_merge`: fold
each element of the sequence into `m` if it is a mapping, failing on
the first element of any other shape.  Returns the mapping as mutated
so far together with the error, if any. -/
def mergeSequenceElems (m : Mapping) : List Value → Mapping × Option MergeError
  | [] => (m, none)
  | x :: rest =>
    match x with
    | .mapping merge => mergeSequenceElems (mergeInto m merge) rest
    | .sequence _ => (m, some .sequenceInMergeElement)
    | .tagged _ _ => (m, some .taggedInMerge)
    | _ => (m, some .scalarInMergeElement)

/-- The per-mapping step of `apply_merge`: `match mapping.remove("<<")`
with its five arms.  Returns the mapping as mutated so far together
with the error, if any. -/
def processMapping (m : Mapping) : Mapping × Option MergeError :=
  match mapRemove m (.str "<<") with
  | (none, m₀) => (m₀, none)
  | (some (.mapping merge), m₀) => (mergeInto m₀ merge, none)
  | (some (.sequence s), m₀) => mergeSequenceElems m₀ s
  | (some (.tagged _ _), m₀) => (m₀, some .taggedInMerge)
  | (some _, m₀) => (m₀, some .scalarInMerge)

/-- Modelled from the spec: `Value::untag_ref` of `tagged.rs` (not part
of the provided sources), the single untag helper used by the typed
extraction paths: strips Tagged wrappers until the value is no longer
Tagged. -/
def untagRef : Value → Value
  | .tagged _ v => untagRef v
  | v => v

theorem sizeV_pos (v : Value) : 1 ≤ sizeV v := by
  cases v <;> simp [sizeV]

theorem sizeP_append (a b : List (Value × Value)) :
    sizeP (a ++ b) = sizeP a + sizeP b := by
  induction a with
  | nil => simp [sizeP]
  | cons e rest ih => cases e; simp [sizeP, ih]; omega

theorem sizeP_orInsert (m : Mapping) (k v : Value) :
    sizeP (orInsert m k v) ≤ sizeP m + 1 + sizeV k + sizeV v := by
  unfold orInsert
  split
  · omega
  · rw [sizeP_append]; simp [sizeP]; omega

theorem sizeP_mergeInto (m src : Mapping) :
    sizeP (mergeInto m src) ≤ sizeP m + sizeP src := by
  induction src generalizing m with
  | nil => simp [mergeInto]
  | cons e rest ih =>
    cases e with
    | mk k v =>
      have h1 := ih (orInsert m k v)
      have h2 := sizeP_orInsert m k v
      simp only [mergeInto]
      simp [sizeP] at *
      omega


theorem mapRemove_none (m : Mapping) (k : Value)
    (h : (mapRemove m k).1 = none) : (mapRemove m k).2 = m := by
  induction m with
  | nil => simp [mapRemove]
  | cons e rest ih =>
    cases e with
    | mk k' v =>
      by_cases hkv : valueEq k' k = true
      · simp [mapRemove, hkv] at h
      · simp [mapRemove, hkv] at h ⊢
        exact ih h

theorem mapRemove_some_size (m : Mapping) (k v : Value)
    (h : (mapRemove m k).1 = some v) :
    sizeP (mapRemove m k).2 + 2 + sizeV v ≤ sizeP m := by
  induction m with
  | nil => simp [mapRemove] at h
  | cons e rest ih =>
    cases e with
    | mk k' v' =>
      by_cases hkv : valueEq k' k = true
      · simp [mapRemove, hkv] at h ⊢
        subst h
        have := sizeV_pos k'
        simp [sizeP]
        omega
      · simp [mapRemove, hkv] at h ⊢
        have := ih h
        simp [sizeP]
        omega

theorem sizeP_mergeSequenceElems (m : Mapping) (s : List Value) :
    sizeP (mergeSequenceElems m s).1 ≤ sizeP m + sizeL s := by
  induction s generalizing m with
  | nil => simp [mergeSequenceElems]
  | cons x rest ih =>
    cases x <;> simp only [mergeSequenceElems] <;> (simp [sizeL]; try omega)
    case mapping merge =>
      have h1 := ih (mergeInto m merge)
      have h2 := sizeP_mergeInto m merge
      simp [sizeV] at *
      omega

theorem processMapping_size {m m' : Mapping} {e : Option MergeError}
    (h : processMapping m = (m', e)) : sizeP m' ≤ sizeP m := by
  rcases hmr : mapRemove m (Value.str "<<") with ⟨found, m₀⟩
  unfold processMapping at h
  rw [hmr] at h
  have hrm1 : (mapRemove m (Value.str "<<")).1 = found := by rw [hmr]
  have hrm2 : (mapRemove m (Value.str "<<")).2 = m₀ := by rw [hmr]
  cases found with
  | none =>
    simp at h
    obtain ⟨rfl, rfl⟩ := h
    have hm := mapRemove_none m _ hrm1
    rw [hrm2] at hm
    rw [hm]
  | some val =>
    have hsz := mapRemove_some_size m _ val hrm1
    rw [hrm2] at hsz
    cases val with
    | mapping merge =>
      simp at h
      obtain ⟨rfl, rfl⟩ := h
      have h1 := sizeP_mergeInto m₀ merge
      simp [sizeV] at hsz
      omega
    | sequence s =>
      simp at h
      have h1 := sizeP_mergeSequenceElems m₀ s
      rw [h] at h1
      simp at h1
      simp [sizeV] at hsz
      omega
    | tagged t w =>
      simp at h
      obtain ⟨rfl, rfl⟩ := h
      omega
    | null =>
      simp at h
      obtain ⟨rfl, rfl⟩ := h
      omega
    | bool b =>
      simp at h
      obtain ⟨rfl, rfl⟩ := h
      omega
    | number n =>
      simp at h
      obtain ⟨rfl, rfl⟩ := h
      omega
    | str s =>
      simp at h
      obtain ⟨rfl, rfl⟩ := h
      omega

theorem processMapping_size_fst (m : Mapping) :
    sizeP (processMapping m).1 ≤ sizeP m := by
  rcases hp : processMapping m with ⟨m', e⟩
  simpa using processMapping_size hp

mutual

/-- `Value::apply_merge` (`src/value/mod.rs`): resolve every `"<<"`
key reachable from the root.  The source traverses with an explicit
LIFO work stack (`stack.pop` takes the most recently pushed node, and
children are pushed after their parent's merge is resolved), which is
a depth-first traversal processing later siblings before earlier ones;
`amList`/`amPairs` below realise exactly that order.  The result is
the rewritten tree paired with the first error encountered, if any; on
error the parts already processed keep their mutations (no rollback). -/
def applyMerge : Value → Value × Option MergeError
  | .mapping m =>
    match (processMapping m).2 with
    | some e => (.mapping (processMapping m).1, some e)
    | none =>
      (.mapping (amPairs (processMapping m).1).1, (amPairs (processMapping m).1).2)
  | .sequence xs => (.sequence (amList xs).1, (amList xs).2)
  | .tagged t v => (.tagged t (applyMerge v).1, (applyMerge v).2)
  | v => (v, none)
termination_by v => sizeV v
decreasing_by
  · simp [sizeV]
    exact lt_of_le_of_lt (processMapping_size_fst _) (by omega)
  · simp [sizeV]
  · simp [sizeV]

/-- `stack.extend(sequence)` followed by popping: the elements of a
sequence are processed from the last to the first; on failure the
elements before the failing one are left untouched. -/
def amList : List Value → List Value × Option MergeError
  | [] => ([], none)
  | x :: xs =>
    match amList xs with
    | (xs', some e) => (x :: xs', some e)
    | (xs', none) => ((applyMerge x).1 :: xs', (applyMerge x).2)
termination_by xs => sizeL xs
decreasing_by
  · simp [sizeL]
    try omega
  · simp [sizeL]
    try omega

/-- `stack.extend(mapping.values_mut())` followed by popping: the
values of a mapping are processed from the last entry to the first;
keys are not traversed. -/
def amPairs : Mapping → Mapping × Option MergeError
  | [] => ([], none)
  | (k, v) :: ps =>
    match amPairs ps with
    | (ps', some e) => ((k, v) :: ps', some e)
    | (ps', none) => ((k, (applyMerge v).1) :: ps', (applyMerge v).2)
termination_by ps => sizeP ps
decreasing_by
  · simp [sizeP]
    try omega
  · simp [sizeP]
    try omega

end

theorem mapGet_append_some {m : Mapping} {k v : Value} (rest : Mapping)
    (h : mapGet m k = some v) : mapGet (m ++ rest) k = some v := by
  induction m with
  | nil => simp [mapGet] at h
  | cons e t ih =>
    cases e with
    | mk k' v' =>
      by_cases hkv : valueEq k' k = true <;>
        simp [mapGet, hkv] at h ⊢ <;> simp_all

theorem mapGet_orInsert_some {m : Mapping} {k v : Value} (k' v' : Value)
    (h : mapGet m k = some v) : mapGet (orInsert m k' v') k = some v := by
  unfold orInsert
  split
  · exact h
  · exact mapGet_append_some _ h

theorem mapGet_mergeInto_some {m : Mapping} {k v : Value} (src : Mapping)
    (h : mapGet m k = some v) : mapGet (mergeInto m src) k = some v := by
  induction src generalizing m with
  | nil => simpa [mergeInto] using h
  | cons e rest ih =>
    cases e with
    | mk k' v' =>
      simp only [mergeInto]
      exact ih (mapGet_orInsert_some k' v' h)

theorem mergeInto_append (m a b : Mapping) :
    mergeInto m (a ++ b) = mergeInto (mergeInto m a) b := by
  induction a generalizing m with
  | nil => simp [mergeInto]
  | cons e rest ih =>
    cases e with
    | mk k v =>
      simp only [List.cons_append, mergeInto, List.append_eq]
      exact ih (orInsert m k v)

/-- C1: the `"<<"` merge folds entries into the surrounding mapping
with the insert-only-if-absent rule, so native entries always win; a
`"<<"` sequence is folded element by element in order, so earlier
elements win over later ones.  Conjuncts: (1) inserting an already
present key leaves the mapping unchanged; (2) inserting an absent key
appends it; (3) a key present before the merge keeps its value through
the whole fold; (4) folding a concatenation folds the earlier part
first; (5) a sequence element that is a mapping is folded with the
same rule before the remaining elements; (6) the mapping example
`\x7ba:1, "<<": \x7ba:2, b:2\x7d\x7d` merges to `\x7ba:1, b:2\x7d`;
(7) the sequence example `\x7b"<<": [\x7ba:1\x7d, \x7ba:2, b:2\x7d]\x7d`
also merges to `\x7ba:1, b:2\x7d`. -/
theorem c1_merge_insert_only_if_absent :
    (∀ m k v, containsKey m k = true → orInsert m k v = m)
    ∧ (∀ m k v, containsKey m k = false → orInsert m k v = m ++ [(k, v)])
    ∧ (∀ m src k v, mapGet m k = some v → mapGet (mergeInto m src) k = some v)
    ∧ (∀ m a b, mergeInto m (a ++ b) = mergeInto (mergeInto m a) b)
    ∧ (∀ m merge rest, mergeSequenceElems m (.mapping merge :: rest)
        = mergeSequenceElems (mergeInto m merge) rest)
    ∧ applyMerge (.mapping [(.str "a", .number (.posInt 1)),
        (.str "<<", .mapping [(.str "a", .number (.posInt 2)),
          (.str "b", .number (.posInt 2))])])
      = (.mapping [(.str "a", .number (.posInt 1)),
          (.str "b", .number (.posInt 2))], none)
    ∧ applyMerge (.mapping [(.str "<<",
        .sequence [.mapping [(.str "a", .number (.posInt 1))],
          .mapping [(.str "a", .number (.posInt 2)),
            (.str "b", .number (.posInt 2))]])])
      = (.mapping [(.str "a", .number (.posInt 1)),
          (.str "b", .number (.posInt 2))], none) := by
  refine ⟨?_, ?_, ?_, ?_, ?_, ?_, ?_⟩
  · intro m k v h
    simp [orInsert, h]
  · intro m k v h
    simp [orInsert, h]
  · intro m src k v h
    exact mapGet_mergeInto_some src h
  · intro m a b
    exact mergeInto_append m a b
  · intro m merge rest
    simp [mergeSequenceElems]
  · simp [applyMerge, amPairs, amList, processMapping, mapRemove, mergeInto, orInsert,
      containsKey, valueEq, mergeSequenceElems]
  · simp [applyMerge, amPairs, amList, processMapping, mapRemove, mergeInto, orInsert,
      containsKey, valueEq, mergeSequenceElems]

/-- Witness for C1: the hypotheses are satisfiable — key `a` of the
example is already present so its native value 1 survives the merge. -/
theorem c1_merge_insert_only_if_absent_witness :
    orInsert [(Value.str "a", Value.number (.posInt 1))] (Value.str "a")
        (Value.number (.posInt 2))
      = [(Value.str "a", Value.number (.posInt 1))]
    ∧ mapGet (mergeInto [(Value.str "a", Value.number (.posInt 1))]
        [(Value.str "a", Value.number (.posInt 2)),
         (Value.str "b", Value.number (.posInt 2))]) (Value.str "a")
      = some (Value.number (.posInt 1)) :=
  ⟨c1_merge_insert_only_if_absent.1 _ _ _ (by simp [containsKey, valueEq]),
   c1_merge_insert_only_if_absent.2.2.1 _ _ _ _ (by simp [mapGet, valueEq])⟩

/-- Does the value fall into the catch-all "scalar" arms of
`apply_merge` (neither Mapping, Sequence nor Tagged)? -/
def isScalar : Value → Bool
  | .null | .bool _ | .number _ | .str _ => true
  | _ => false

/-- C3: each malformed `"<<"` value produces exactly the matching
typed error: a Tagged merge value fails with `TaggedInMerge`, any
other non-Mapping non-Sequence value with `ScalarInMerge`; inside a
`"<<"` sequence a Sequence element fails with
`SequenceInMergeElement`, a Tagged element with `TaggedInMerge`, a
scalar element with `ScalarInMergeElement`.  The operation fails fast
on the first error and leaves the tree partially mutated: the `"<<"`
key is already removed (conjuncts 1-5), mappings folded before the
failing sequence element stay folded (conjunct 6), and in the closed
example (conjunct 7) the failing sibling has lost its `"<<"` entry
while the sibling scheduled after it is left untouched. -/
theorem c3_merge_error_cases :
    (∀ t w rest, applyMerge (.mapping ((.str "<<", .tagged t w) :: rest))
      = (.mapping rest, some .taggedInMerge))
    ∧ (∀ v rest, isScalar v = true →
        applyMerge (.mapping ((.str "<<", v) :: rest))
          = (.mapping rest, some .scalarInMerge))
    ∧ (∀ s more rest,
        applyMerge (.mapping ((.str "<<", .sequence (.sequence s :: more)) :: rest))
          = (.mapping rest, some .sequenceInMergeElement))
    ∧ (∀ t w more rest,
        applyMerge (.mapping ((.str "<<", .sequence (.tagged t w :: more)) :: rest))
          = (.mapping rest, some .taggedInMerge))
    ∧ (∀ v more rest, isScalar v = true →
        applyMerge (.mapping ((.str "<<", .sequence (v :: more)) :: rest))
          = (.mapping rest, some .scalarInMergeElement))
    ∧ (∀ merge s more rest,
        applyMerge (.mapping
            ((.str "<<", .sequence (.mapping merge :: .sequence s :: more)) :: rest))
          = (.mapping (mergeInto rest merge), some .sequenceInMergeElement))
    ∧ applyMerge (.sequence
        [.mapping [(.str "<<", .mapping [(.str "a", .number (.posInt 1))])],
         .mapping [(.str "<<", .number (.posInt 5))]])
      = (.sequence
          [.mapping [(.str "<<", .mapping [(.str "a", .number (.posInt 1))])],
           .mapping []], some .scalarInMerge) := by
  refine ⟨?_, ?_, ?_, ?_, ?_, ?_, ?_⟩
  · intro t w rest
    simp [applyMerge, processMapping, mapRemove, valueEq]
  · intro v rest h
    cases v <;> simp [isScalar] at h <;>
      simp [applyMerge, processMapping, mapRemove, valueEq]
  · intro s more rest
    simp [applyMerge, processMapping, mapRemove, valueEq, mergeSequenceElems]
  · intro t w more rest
    simp [applyMerge, processMapping, mapRemove, valueEq, mergeSequenceElems]
  · intro v more rest h
    cases v <;> simp [isScalar] at h <;>
      simp [applyMerge, processMapping, mapRemove, valueEq, mergeSequenceElems]
  · intro merge s more rest
    simp [applyMerge, processMapping, mapRemove, valueEq, mergeSequenceElems]
  · simp [applyMerge, amList, amPairs, processMapping, mapRemove, valueEq,
      mergeSequenceElems]

/-- Witness for C3: the scalar hypotheses hold for a number value. -/
theorem c3_merge_error_cases_witness :
    applyMerge (.mapping [(Value.str "<<", Value.number (.posInt 5))])
      = (.mapping [], some .scalarInMerge)
    ∧ applyMerge (.mapping [(Value.str "<<", Value.sequence [Value.bool true])])
      = (.mapping [], some .scalarInMergeElement) :=
  ⟨c3_merge_error_cases.2.1 _ _ (by simp [isScalar]),
   c3_merge_error_cases.2.2.2.2.1 _ _ _ (by simp [isScalar])⟩

theorem sizeL_append (a b : List Value) : sizeL (a ++ b) = sizeL a + sizeL b := by
  induction a with
  | nil => simp [sizeL]
  | cons x rest ih => simp [sizeL, ih]; omega

theorem sizeL_reverse (a : List Value) : sizeL a.reverse = sizeL a := by
  induction a with
  | nil => rfl
  | cons x rest ih => simp [sizeL, sizeL_append, ih]; omega

theorem sizeL_map_snd (m : Mapping) : sizeL (m.map Prod.snd) ≤ sizeP m := by
  induction m with
  | nil => simp [sizeL, sizeP]
  | cons e rest ih =>
    cases e with
    | mk k v =>
      have := sizeV_pos k
      simp [sizeL, sizeP]
      omega

/-- The work-stack loop of `Value::apply_merge` taken literally as a
state machine on a stack of pending subtrees (`stack.pop` takes the
head; `stack.extend` pushes a block of children, so they are listed
reversed with the last-pushed child on top).  It returns the first
error the loop would report.  Because the popped subtrees are disjoint,
the stack entries can be carried by value; this machine decides
success/failure and bounds the traversal, while `applyMerge` also
rebuilds the tree. -/
def mergeTraverse : List Value → Option MergeError
  | [] => none
  | v :: stack =>
    match v with
    | .mapping m =>
      match (processMapping m).2 with
      | some e => some e
      | none => mergeTraverse (((processMapping m).1.map Prod.snd).reverse ++ stack)
    | .sequence xs => mergeTraverse (xs.reverse ++ stack)
    | .tagged _ w => mergeTraverse (w :: stack)
    | _ => mergeTraverse stack
termination_by stack => sizeL stack
decreasing_by
  · have h1 := sizeL_map_snd (processMapping merge).1
    have h2 := processMapping_size_fst merge
    simp [sizeL, sizeV, sizeL_append, sizeL_reverse]
    omega
  · simp [sizeL, sizeV, sizeL_append, sizeL_reverse]
    try omega
  · simp [sizeL, sizeV]
    try omega
  · simp [sizeL, sizeV]
    try omega

/-- A chain of singleton sequences of the given depth. -/
def seqChain : Nat → Value
  | 0 => .null
  | n + 1 => .sequence [seqChain n]

/-- The stack machine agrees with the rebuilding traversal: running
the work stack with `v` on top reports the error of processing `v`
first, and continues with the remaining stack only if `v` succeeds. -/
theorem mergeTraverse_cons (v : Value) : ∀ rest,
    mergeTraverse (v :: rest) =
      match (applyMerge v).2 with
      | some e => some e
      | none => mergeTraverse rest := by
  refine applyMerge.induct
    (fun v => ∀ rest, mergeTraverse (v :: rest) =
      match (applyMerge v).2 with
      | some e => some e
      | none => mergeTraverse rest)
    (fun xs => ∀ rest, mergeTraverse (xs.reverse ++ rest) =
      match (amList xs).2 with
      | some e => some e
      | none => mergeTraverse rest)
    (fun ps => ∀ rest, mergeTraverse ((ps.map Prod.snd).reverse ++ rest) =
      match (amPairs ps).2 with
      | some e => some e
      | none => mergeTraverse rest)
    ?_ ?_ ?_ ?_ ?_ ?_ ?_ ?_ ?_ ?_ ?_ v
  · intro m e he rest
    simp [mergeTraverse, applyMerge, he]
  · intro m hnone ih rest
    have h := ih rest
    simp [mergeTraverse, applyMerge, hnone] at h ⊢
    exact h
  · intro xs ih rest
    have h := ih rest
    simp [mergeTraverse, applyMerge] at h ⊢
    exact h
  · intro t w ih rest
    have h := ih rest
    simp [mergeTraverse, applyMerge] at h ⊢
    exact h
  · intro x hnm hns hnt rest
    cases x with
    | mapping m => exact absurd rfl (hnm m)
    | sequence xs => exact absurd rfl (hns xs)
    | tagged t w => exact absurd rfl (hnt t w)
    | null => simp [mergeTraverse, applyMerge]
    | bool b => simp [mergeTraverse, applyMerge]
    | number n => simp [mergeTraverse, applyMerge]
    | str s => simp [mergeTraverse, applyMerge]
  · intro rest
    simp [amList, mergeTraverse]
  · intro x xs xs' e hal ih rest
    have h := ih (x :: rest)
    simp [amList, hal] at h ⊢
    exact h
  · intro x xs xs' hal ihxs ihx rest
    have h := ihxs (x :: rest)
    have h2 := ihx rest
    simp [amList, hal] at h h2 ⊢
    rw [h]
    exact h2
  · intro rest
    simp [amPairs, mergeTraverse]
  · intro k v ps ps' e hap ih rest
    have h := ih (v :: rest)
    simp [amPairs, hap] at h ⊢
    exact h
  · intro k v ps ps' hap ihps ihv rest
    have h := ihps (v :: rest)
    have h2 := ihv rest
    simp [amPairs, hap] at h h2 ⊢
    rw [h]
    exact h2

/-- C10: the merge resolver is an iterative, explicit work-stack
traversal.  Embedded as the total state machine `mergeTraverse` (whose
totality over all finite trees is exactly the termination proof of its
definition), it survives a singleton-sequence chain of any depth `n` —
including 50,000 — reporting no error, and `applyMerge` returns such a
chain unchanged.  Call-stack byte usage itself is outside the
embedding; its observable counterpart is that the explicit stack
machine terminates at every nesting depth. -/
theorem c10_stack_traversal_any_depth :
    (∀ n, mergeTraverse [seqChain n] = none)
    ∧ (∀ n, applyMerge (seqChain n) = (seqChain n, none))
    ∧ (∀ v, mergeTraverse [v] = (applyMerge v).2) := by
  refine ⟨?_, ?_, ?_⟩
  · intro n
    induction n with
    | zero => simp [seqChain, mergeTraverse]
    | succ k ih => simpa [seqChain, mergeTraverse] using ih
  · intro n
    induction n with
    | zero => simp [seqChain, applyMerge]
    | succ k ih => simp [seqChain, applyMerge, amList, ih]
  · intro v
    have h := mergeTraverse_cons v []
    rcases he : (applyMerge v).2 with _ | e <;> simp [he, mergeTraverse] at h <;>
      simp [h, he]


/-- No entry of the mapping has the merge key `"<<"` as its key. -/
def noMergeKey (m : Mapping) : Bool :=
  m.all fun e => !(valueEq e.1 (.str "<<"))

/-- The mapping has at most one `"<<"` entry: once a `"<<"` key is
seen, no later entry may carry it again. -/
def atMostOneMergeKey : Mapping → Bool
  | [] => true
  | (k, _) :: rest =>
    if valueEq k (.str "<<") then noMergeKey rest else atMostOneMergeKey rest

/-- Is a `"<<"` sequence element harmless as a merge source: if it is
a mapping, its top level must not itself contain `"<<"`. -/
def goodElem : Value → Bool
  | .mapping mm => noMergeKey mm
  | _ => true

/-- Is the value found under a `"<<"` key a harmless merge source: a
mapping must not contain a top-level `"<<"`, and every mapping element
of a sequence must not either. -/
def sourceOk : Option Value → Bool
  | some (.mapping merge) => noMergeKey merge
  | some (.sequence elems) => elems.all goodElem
  | _ => true

mutual

/-- No mapping anywhere in the value (keys included) contains the
merge key `"<<"`. -/
def mergeFree : Value → Bool
  | .sequence xs => mergeFreeL xs
  | .mapping m => noMergeKey m && mergeFreeP m
  | .tagged _ v => mergeFree v
  | _ => true
termination_by v => sizeOf v
decreasing_by all_goals (simp_wf; try omega)

/-- `mergeFree` for every element of a list. -/
def mergeFreeL : List Value → Bool
  | [] => true
  | x :: xs => mergeFree x && mergeFreeL xs
termination_by xs => sizeOf xs
decreasing_by all_goals (simp_wf; try omega)

/-- `mergeFree` for every key and value of an entry list. -/
def mergeFreeP : Mapping → Bool
  | [] => true
  | (k, v) :: ps => mergeFree k && mergeFree v && mergeFreeP ps
termination_by ps => sizeOf ps
decreasing_by all_goals (simp_wf; try omega)

end

mutual

/-- The precondition under which `apply_merge` removes every `"<<"`:
every mapping in the tree carries at most one `"<<"` entry whose value
is a harmless source (no top-level `"<<"` of its own), keys are
`mergeFree` (keys are never traversed), and all values are recursively
good. -/
def good : Value → Bool
  | .sequence xs => goodL xs
  | .mapping m =>
    atMostOneMergeKey m && sourceOk (mapGet m (.str "<<")) && goodP m
  | .tagged _ v => good v
  | _ => true
termination_by v => sizeOf v
decreasing_by all_goals (simp_wf; try omega)

/-- `good` for every element of a list. -/
def goodL : List Value → Bool
  | [] => true
  | x :: xs => good x && goodL xs
termination_by xs => sizeOf xs
decreasing_by all_goals (simp_wf; try omega)

/-- Every entry has a `mergeFree` key and a `good` value. -/
def goodP : Mapping → Bool
  | [] => true
  | (k, v) :: ps => mergeFree k && good v && goodP ps
termination_by ps => sizeOf ps
decreasing_by all_goals (simp_wf; try omega)

end

theorem mapRemove_fst_eq_mapGet (m : Mapping) (k : Value) :
    (mapRemove m k).1 = mapGet m k := by
  induction m with
  | nil => simp [mapRemove, mapGet]
  | cons e rest ih =>
    cases e with
    | mk k' v =>
      by_cases hkv : valueEq k' k = true <;> simp [mapRemove, mapGet, hkv, ih]

theorem mapRemove_snd_noMergeKey (m : Mapping)
    (h : atMostOneMergeKey m = true) :
    noMergeKey (mapRemove m (.str "<<")).2 = true := by
  induction m with
  | nil => simp [mapRemove, noMergeKey]
  | cons e rest ih =>
    cases e with
    | mk k' v =>
      by_cases hkv : valueEq k' (.str "<<") = true <;>
        simp [mapRemove, atMostOneMergeKey, hkv] at h ⊢
      · exact h
      · simp [noMergeKey] at ih ⊢
        exact ⟨Bool.eq_false_iff.mpr hkv, ih h⟩

theorem mapRemove_snd_mem {m : Mapping} {k : Value} {e : Value × Value}
    (h : e ∈ (mapRemove m k).2) : e ∈ m := by
  induction m with
  | nil => simp [mapRemove] at h
  | cons e' rest ih =>
    cases e' with
    | mk k' v =>
      by_cases hkv : valueEq k' k = true <;> simp [mapRemove, hkv] at h
      · simp [h]
      · rcases h with h | h
        · simp [h]
        · simp [ih h]

theorem orInsert_mem {m : Mapping} {k v : Value} {e : Value × Value}
    (h : e ∈ orInsert m k v) : e ∈ m ∨ e = (k, v) := by
  unfold orInsert at h
  split at h
  · exact Or.inl h
  · simpa using h

theorem mergeInto_mem {m src : Mapping} {e : Value × Value}
    (h : e ∈ mergeInto m src) : e ∈ m ∨ e ∈ src := by
  induction src generalizing m with
  | nil =>
    simp [mergeInto] at h
    exact Or.inl h
  | cons e' rest ih =>
    cases e' with
    | mk k' v' =>
      simp only [mergeInto] at h
      rcases ih h with h' | h'
      · rcases orInsert_mem h' with h'' | h''
        · exact Or.inl h''
        · right
          simp [h'']
      · right
        simp [h']

theorem noMergeKey_orInsert {m : Mapping} {k v : Value}
    (hm : noMergeKey m = true) (hk : valueEq k (.str "<<") = false) :
    noMergeKey (orInsert m k v) = true := by
  unfold orInsert
  split
  · exact hm
  · simp [noMergeKey] at hm ⊢
    exact ⟨hm, hk⟩

theorem noMergeKey_mergeInto {m src : Mapping}
    (hm : noMergeKey m = true) (hs : noMergeKey src = true) :
    noMergeKey (mergeInto m src) = true := by
  induction src generalizing m with
  | nil => simpa [mergeInto] using hm
  | cons e rest ih =>
    cases e with
    | mk k v =>
      simp only [noMergeKey, List.all_cons, Bool.and_eq_true] at hs
      simp only [mergeInto]
      refine ih (noMergeKey_orInsert hm ?_) ?_
      · simpa using hs.1
      · simpa [noMergeKey] using hs.2

theorem noMergeKey_mergeSequenceElems {m : Mapping} {elems : List Value}
    (hm : noMergeKey m = true) (hs : elems.all goodElem = true) :
    noMergeKey (mergeSequenceElems m elems).1 = true := by
  induction elems generalizing m with
  | nil => simpa [mergeSequenceElems] using hm
  | cons x rest ih =>
    simp only [List.all_cons, Bool.and_eq_true] at hs
    cases x <;> simp only [mergeSequenceElems] <;> try exact hm
    case mapping mm =>
      refine ih (noMergeKey_mergeInto hm ?_) hs.2
      simpa [goodElem] using hs.1

theorem mergeSequenceElems_mem {m : Mapping} {elems : List Value}
    {e : Value × Value} (h : e ∈ (mergeSequenceElems m elems).1) :
    e ∈ m ∨ ∃ mm, Value.mapping mm ∈ elems ∧ e ∈ mm := by
  induction elems generalizing m with
  | nil => simp [mergeSequenceElems] at h; exact Or.inl h
  | cons x rest ih =>
    cases x <;> simp only [mergeSequenceElems] at h <;> try exact Or.inl h
    case mapping mm =>
      rcases ih h with h' | ⟨mm', hmm', he⟩
      · rcases mergeInto_mem h' with h'' | h''
        · exact Or.inl h''
        · exact Or.inr ⟨mm, by simp, h''⟩
      · exact Or.inr ⟨mm', by simp [hmm'], he⟩

theorem goodP_forall {ps : Mapping} :
    goodP ps = true ↔ ∀ e ∈ ps, mergeFree e.1 = true ∧ good e.2 = true := by
  induction ps with
  | nil => simp [goodP]
  | cons e rest ih =>
    cases e with
    | mk k v => simp [goodP, ih, and_assoc]

theorem goodL_forall {xs : List Value} :
    goodL xs = true ↔ ∀ x ∈ xs, good x = true := by
  induction xs with
  | nil => simp [goodL]
  | cons x rest ih => simp [goodL, ih]

theorem mapGet_mem {m : Mapping} {k v : Value} (h : mapGet m k = some v) :
    ∃ k', (k', v) ∈ m := by
  induction m with
  | nil => simp [mapGet] at h
  | cons e rest ih =>
    cases e with
    | mk k' v' =>
      by_cases hkv : valueEq k' k = true <;> simp [mapGet, hkv] at h
      · exact ⟨k', by simp [h]⟩
      · rcases ih h with ⟨k'', hk''⟩
        exact ⟨k'', by simp [hk'']⟩

theorem processMapping_noMergeKey {m : Mapping}
    (h1 : atMostOneMergeKey m = true)
    (h2 : sourceOk (mapGet m (.str "<<")) = true) :
    noMergeKey (processMapping m).1 = true := by
  have hrm := mapRemove_snd_noMergeKey m h1
  have hfst := mapRemove_fst_eq_mapGet m (.str "<<")
  rcases hmr : mapRemove m (.str "<<") with ⟨found, m₀⟩
  rw [hmr] at hrm hfst
  simp at hrm hfst
  unfold processMapping
  rw [hmr]
  cases found with
  | none => simpa using hrm
  | some val =>
    rw [← hfst] at h2
    cases val with
    | mapping merge =>
      simp only [sourceOk] at h2
      simpa using noMergeKey_mergeInto hrm h2
    | sequence elems =>
      simp only [sourceOk] at h2
      simpa using noMergeKey_mergeSequenceElems hrm h2
    | null => simpa using hrm
    | bool b => simpa using hrm
    | number n => simpa using hrm
    | str s => simpa using hrm
    | tagged t w => simpa using hrm

theorem processMapping_entries {m : Mapping} (hgP : goodP m = true) :
    ∀ e ∈ (processMapping m).1, mergeFree e.1 = true ∧ good e.2 = true := by
  intro e he
  have hfst := mapRemove_fst_eq_mapGet m (.str "<<")
  rcases hmr : mapRemove m (.str "<<") with ⟨found, m₀⟩
  rw [hmr] at hfst
  simp at hfst
  unfold processMapping at he
  rw [hmr] at he
  have hm₀ : ∀ e' ∈ m₀, e' ∈ m := by
    intro e' h'
    exact mapRemove_snd_mem
      (show e' ∈ (mapRemove m (Value.str "<<")).2 by rw [hmr]; exact h')
  cases found with
  | none =>
    simp at he
    exact goodP_forall.mp hgP e (hm₀ e he)
  | some val =>
    obtain ⟨k', hk'⟩ := mapGet_mem hfst.symm
    have hval : good val = true := (goodP_forall.mp hgP _ hk').2
    cases val with
    | mapping merge =>
      simp at he
      rcases mergeInto_mem he with h' | h'
      · exact goodP_forall.mp hgP e (hm₀ e h')
      · have hgm : goodP merge = true := by
          simp [good] at hval
          exact hval.2
        exact goodP_forall.mp hgm e h'
    | sequence elems =>
      simp at he
      rcases mergeSequenceElems_mem he with h' | ⟨mm, hmm, hemem⟩
      · exact goodP_forall.mp hgP e (hm₀ e h')
      · have hse : goodL elems = true := by simpa [good] using hval
        have hgmm : good (.mapping mm) = true := goodL_forall.mp hse _ hmm
        have hgm : goodP mm = true := by
          simp [good] at hgmm
          exact hgmm.2
        exact goodP_forall.mp hgm e hemem
    | null =>
      simp at he
      exact goodP_forall.mp hgP e (hm₀ e he)
    | bool b =>
      simp at he
      exact goodP_forall.mp hgP e (hm₀ e he)
    | number n =>
      simp at he
      exact goodP_forall.mp hgP e (hm₀ e he)
    | str s =>
      simp at he
      exact goodP_forall.mp hgP e (hm₀ e he)
    | tagged t w =>
      simp at he
      exact goodP_forall.mp hgP e (hm₀ e he)

theorem amPairs_keys (ps : Mapping) :
    ((amPairs ps).1).map Prod.fst = ps.map Prod.fst := by
  induction ps with
  | nil => simp [amPairs]
  | cons e rest ih =>
    cases e with
    | mk k v =>
      rcases hap : amPairs rest with ⟨ps', eo⟩
      rw [hap] at ih
      simp at ih
      cases eo <;> simp [amPairs, hap] <;> simpa using ih

theorem noMergeKey_keys (a : Mapping) :
    noMergeKey a = (a.map Prod.fst).all fun k => !(valueEq k (.str "<<")) := by
  induction a with
  | nil => rfl
  | cons e rest ih =>
    cases e with
    | mk k v =>
      simp only [noMergeKey, List.map_cons, List.all_cons] at ih ⊢
      rw [ih]

theorem noMergeKey_of_keys {a b : Mapping}
    (h : a.map Prod.fst = b.map Prod.fst) : noMergeKey a = noMergeKey b := by
  rw [noMergeKey_keys, noMergeKey_keys, h]

/-- Under the `good` precondition, a successful `apply_merge` leaves
no `"<<"` key anywhere in the tree. -/
theorem applyMerge_mergeFree_of_good (v : Value) :
    good v = true → (applyMerge v).2 = none →
      mergeFree (applyMerge v).1 = true := by
  refine applyMerge.induct
    (fun v => good v = true → (applyMerge v).2 = none →
      mergeFree (applyMerge v).1 = true)
    (fun xs => goodL xs = true → (amList xs).2 = none →
      mergeFreeL (amList xs).1 = true)
    (fun ps => (∀ e ∈ ps, mergeFree e.1 = true ∧ good e.2 = true) →
      (amPairs ps).2 = none → mergeFreeP (amPairs ps).1 = true)
    ?_ ?_ ?_ ?_ ?_ ?_ ?_ ?_ ?_ ?_ ?_ v
  · intro m e he hg hs
    simp [applyMerge, he] at hs
  · intro m hn ih hg hs
    simp only [good, Bool.and_eq_true] at hg
    obtain ⟨⟨h1, h2⟩, h3⟩ := hg
    have hs' : (amPairs (processMapping m).1).2 = none := by
      simpa [applyMerge, hn] using hs
    have hP := ih (processMapping_entries h3) hs'
    have hnmk := processMapping_noMergeKey h1 h2
    have hkeys : noMergeKey (amPairs (processMapping m).1).1
        = noMergeKey (processMapping m).1 :=
      noMergeKey_of_keys (amPairs_keys (processMapping m).1)
    simp [applyMerge, hn, mergeFree, hkeys, hnmk, hP]
  · intro xs ih hg hs
    simp only [good] at hg
    simp only [applyMerge] at hs
    simp [applyMerge, mergeFree]
    exact ih hg hs
  · intro t w ih hg hs
    simp only [good] at hg
    simp only [applyMerge] at hs
    simp [applyMerge, mergeFree]
    exact ih hg hs
  · intro x hnm hns hnt hg hs
    cases x with
    | mapping m => exact absurd rfl (hnm m)
    | sequence xs => exact absurd rfl (hns xs)
    | tagged t w => exact absurd rfl (hnt t w)
    | null => simp [applyMerge, mergeFree]
    | bool b => simp [applyMerge, mergeFree]
    | number n => simp [applyMerge, mergeFree]
    | str s => simp [applyMerge, mergeFree]
  · intro _ _
    simp [amList, mergeFreeL]
  · intro x xs xs' e hal ih hg hs
    simp [amList, hal] at hs
  · intro x xs xs' hal ihxs ihx hg hs
    simp only [goodL, Bool.and_eq_true] at hg
    simp only [amList, hal] at hs ⊢
    try simp at hs ⊢
    have h1 := ihx hg.1 hs
    have h2 := ihxs hg.2 (by simp [hal])
    rw [hal] at h2
    simp at h2
    simp [mergeFreeL, h1, h2]
  · intro _ _
    simp [amPairs, mergeFreeP]
  · intro k v ps ps' e hap ih hents hs
    simp [amPairs, hap] at hs
  · intro k v ps ps' hap ihps ihv hents hs
    have hk := (hents (k, v) (by simp)).1
    have hv := (hents (k, v) (by simp)).2
    simp only [amPairs, hap] at hs ⊢
    try simp at hs ⊢
    have h1 := ihv hv hs
    have h2 := ihps (fun e he => hents e (by simp [he])) (by simp [hap])
    rw [hap] at h2
    simp at h2
    simp [mergeFreeP, hk, h1, h2]

/-- C2 counterexample: on `\x7b"<<": \x7b"<<": \x7ba:1\x7d\x7d\x7d` the resolver
succeeds, yet the result still contains the key `"<<"`: the `"<<"`
entry merged into the mapping being processed by its own merge is
never popped again, so only the merged-in values — not the merged-in
`"<<"` key — are resolved. -/
theorem c2_merge_key_can_survive :
    (applyMerge (Value.mapping [(Value.str "<<",
        Value.mapping [(Value.str "<<",
          Value.mapping [(Value.str "a", Value.number (.posInt 1))])])])).2 = none
    ∧ mergeFree (applyMerge (Value.mapping [(Value.str "<<",
        Value.mapping [(Value.str "<<",
          Value.mapping [(Value.str "a", Value.number (.posInt 1))])])])).1 = false := by
  constructor <;>
    simp [applyMerge, amPairs, amList, processMapping, mapRemove, mergeInto,
      orInsert, containsKey, valueEq, mergeSequenceElems, mergeFree, mergeFreeP,
      mergeFreeL, noMergeKey]

/-- C2 (amended): values of processed mappings — including values just
merged in — are pushed and resolved in the same pass, but a `"<<"`
key inserted into the mapping currently being processed by its own
merge is not re-processed.  Accordingly, whenever every mapping in the
tree is `good` — it has at most one `"<<"` entry, the mapping supplied
as a merge source (directly or as a sequence element) has no top-level
`"<<"` of its own, and mapping keys contain no `"<<"` (keys are never
traversed) — a successful `apply_merge` leaves no mapping anywhere in
the tree containing the key `"<<"`. -/
theorem c2_merge_keys_resolved_on_good_trees (v : Value)
    (hg : good v = true) (hs : (applyMerge v).2 = none) :
    mergeFree (applyMerge v).1 = true :=
  applyMerge_mergeFree_of_good v hg hs

/-- Witness for C2: a nested merge whose source is clean satisfies the
precondition, succeeds, and the result is free of `"<<"`. -/
theorem c2_merge_keys_resolved_on_good_trees_witness :
    good (Value.mapping [(Value.str "<<",
        Value.mapping [(Value.str "a", Value.number (.posInt 1))])]) = true
    ∧ (applyMerge (Value.mapping [(Value.str "<<",
        Value.mapping [(Value.str "a", Value.number (.posInt 1))])])).2 = none
    ∧ mergeFree (applyMerge (Value.mapping [(Value.str "<<",
        Value.mapping [(Value.str "a", Value.number (.posInt 1))])])).1 = true := by
  have hg : good (Value.mapping [(Value.str "<<",
      Value.mapping [(Value.str "a", Value.number (.posInt 1))])]) = true := by
    simp [good, goodP, goodL, atMostOneMergeKey, sourceOk, mapGet, valueEq,
      noMergeKey, mergeFree, mergeFreeP, mergeFreeL, goodElem]
  have hs : (applyMerge (Value.mapping [(Value.str "<<",
      Value.mapping [(Value.str "a", Value.number (.posInt 1))])])).2 = none := by
    simp [applyMerge, amPairs, amList, processMapping, mapRemove, mergeInto,
      orInsert, containsKey, valueEq, mergeSequenceElems]
  exact ⟨hg, hs, c2_merge_keys_resolved_on_good_trees _ hg hs⟩

/-- One step of a path into a value: into a mapping at a key, into a
sequence at a position, or through a Tagged wrapper into its inner
value.  Mutable references returned by the write-side indexing are
modelled as paths from the value they were obtained from. -/
inductive Step where
  | key (k : Value)
  | idx (i : Nat)
  | inner
deriving Repr

/-- Follow a path to the subvalue it designates. -/
def getPath : Value → List Step → Option Value
  | v, [] => some v
  | .mapping m, .key k :: p =>
    match mapGet m k with
    | some w => getPath w p
    | none => none
  | .sequence xs, .idx i :: p =>
    match xs[i]? with
    | some w => getPath w p
    | none => none
  | .tagged _ w, .inner :: p => getPath w p
  | _, _ => none

/-- Replace the entry of the mapping whose key equals `k` (the first
match) with the given value. -/
def mapSet (m : Mapping) (k x : Value) : Mapping :=
  match m with
  | [] => []
  | (k', v) :: rest =>
    if valueEq k' k then (k', x) :: rest else (k', v) :: mapSet rest k x

/-- Replace the subvalue a path designates. -/
def setPath : Value → List Step → Value → Option Value
  | _, [], x => some x
  | .mapping m, .key k :: p, x =>
    match mapGet m k with
    | some w =>
      match setPath w p x with
      | some w' => some (.mapping (mapSet m k w'))
      | none => none
    | none => none
  | .sequence xs, .idx i :: p, x =>
    match xs[i]? with
    | some w =>
      match setPath w p x with
      | some w' => some (.sequence (xs.set i w'))
      | none => none
    | none => none
  | .tagged t w, .inner :: p, x =>
    match setPath w p x with
    | some w' => some (.tagged t w')
    | none => none
  | _, _, _ => none

/-- The names the `Type` helper of `src/value/index.rs` prints in
usage-fault messages (its Tagged arm is unreachable: every fault site
has already unwrapped Tagged values). -/
def typeName : Value → String
  | .null => "null"
  | .bool _ => "boolean"
  | .number _ => "number"
  | .str _ => "string"
  | .sequence _ => "sequence"
  | .mapping _ => "mapping"
  | .tagged _ _ => "unreachable"

/-- Fatal usage faults of the write-side indexing (`panic!` sites in
`src/value/index.rs`), carrying the data the messages interpolate. -/
inductive Fault where
  | indexOutOfBounds (i len : Nat)
  | cannotIndexUsize (i : Nat) (ty : String)
  | cannotIndexKey (k : Value) (ty : String)
deriving Repr

/-- `<usize as Index>::index_into` (`src/value/index.rs`): read-only
positional lookup on the untagged value; a Mapping is probed with the
integer reinterpreted as a Number key; every mismatch is `none`.
`index_into_mut` applies the same rules to return the same slot
mutably, so this one pure function embeds `get` and `get_mut`. -/
def indexIntoUsize (i : Nat) (v : Value) : Option Value :=
  match untagRef v with
  | .sequence xs => xs[i]?
  | .mapping m => mapGet m (.number (.posInt i))
  | _ => none

/-- `index_into_mapping` (`src/value/index.rs`): read-only key lookup
on the untagged value, used by the `Value`, `str` and `String` index
implementations (a text index probes the String-variant key, which the
hash/equality consistency invariant makes equivalent).  As with
`indexIntoUsize`, the `_mut` variant has identical lookup rules. -/
def indexIntoKey (k : Value) (v : Value) : Option Value :=
  match untagRef v with
  | .mapping m => mapGet m k
  | _ => none

/-- Bracket-read sugar (`ops::Index for Value`): `index_into`, with
the shared `Value::Null` constant when the lookup finds nothing. -/
def bracketReadUsize (i : Nat) (v : Value) : Value :=
  (indexIntoUsize i v).getD .null

/-- Bracket-read sugar for key indexes. -/
def bracketReadKey (k : Value) (v : Value) : Value :=
  (indexIntoKey k v).getD .null

/-- `<usize as Index>::index_or_insert` (`src/value/index.rs`): the
write-side positional lookup.  A Sequence returns the element in
place or faults (index out of bounds) — it never grows; a Mapping
insert-or-fetches the integer-as-Number key with a Null default; a
Tagged value is unwrapped in the loop; anything else faults.  The
returned mutable reference is modelled as the rewritten value plus
the path of the returned slot. -/
def indexOrInsertUsize (i : Nat) : Value → Except Fault (Value × List Step)
  | .sequence xs =>
    if i < xs.length then .ok (.sequence xs, [.idx i])
    else .error (.indexOutOfBounds i xs.length)
  | .mapping m =>
    .ok (.mapping (orInsert m (.number (.posInt i)) .null),
      [.key (.number (.posInt i))])
  | .tagged t w =>
    match indexOrInsertUsize i w with
    | .ok (w', p) => .ok (.tagged t w', .inner :: p)
    | .error e => .error e
  | v => .error (.cannotIndexUsize i (typeName v))

/-- The loop of `index_or_insert_mapping` (`src/value/index.rs`),
entered when the value was not Null at the top: a Mapping
insert-or-fetches the key with a Null default, a Tagged value is
unwrapped, and anything else — Null included — faults. -/
def indexOrInsertKeyLoop (k : Value) : Value → Except Fault (Value × List Step)
  | .mapping m => .ok (.mapping (orInsert m k .null), [.key k])
  | .tagged t w =>
    match indexOrInsertKeyLoop k w with
    | .ok (w', p) => .ok (.tagged t w', .inner :: p)
    | .error e => .error e
  | v => .error (.cannotIndexKey k (typeName v))

/-- `index_or_insert_mapping` (`src/value/index.rs`): the write-side
key lookup used by the `Value`, `str` and `String` indexes.  Only a
Null at the very top is first replaced in place by an empty Mapping
(with the key then inserted with a Null default); otherwise the loop
above runs. -/
def indexOrInsertKey (k : Value) (v : Value) : Except Fault (Value × List Step) :=
  match v with
  | .null => .ok (.mapping (orInsert [] k .null), [.key k])
  | v => indexOrInsertKeyLoop k v

/-- One chained bracket-write step at an already-obtained slot: apply
`index_or_insert` to the subvalue the path designates and splice the
rewritten subvalue back, extending the path by the returned slot. -/
def chainStep (root : Value) (path : List Step) (k : Value) :
    Except Fault (Value × List Step) :=
  match getPath root path with
  | none => .error (.cannotIndexKey k (typeName root))
  | some sub =>
    match indexOrInsertKey k sub with
    | .error e => .error e
    | .ok (sub', rel) =>
      match setPath root path sub' with
      | none => .error (.cannotIndexKey k (typeName root))
      | some root' => .ok (root', path ++ rel)

/-- `data[k1][k2]...[kn] = x`: chain `index_or_insert` through the
keys and assign `x` to the final slot (`ops::IndexMut for Value`). -/
def writeChain (root : Value) (ks : List Value) (x : Value) : Except Fault Value :=
  go root [] ks
where
  /-- Walk the keys, keeping the whole (already partly rewritten)
  root and the path of the current slot. -/
  go (root : Value) (path : List Step) : List Value → Except Fault Value
    | [] =>
      match setPath root path x with
      | some root' => .ok root'
      | none => .error (.cannotIndexKey x (typeName root))
    | k :: rest =>
      match chainStep root path k with
      | .error e => .error e
      | .ok (root', path') => go root' path' rest

/-- C4 counterexample: a Tagged value whose inner value is Null is
not auto-vivified by a key write — it faults, because the Null check
of `index_or_insert_mapping` runs only before the Tagged-unwrapping
loop, and the loop sends an inner Null to the fault arm. -/
theorem c4_tagged_null_write_faults :
    indexOrInsertKey (.str "a") (.tagged "t" .null)
      = .error (.cannotIndexKey (.str "a") "null") := rfl

/-- C4 (amended): get_or_insert with a text/Value index vivifies only
a Null found at the very top, before any Tagged unwrapping: a
top-level Null is replaced in place by an empty Mapping and the key is
inserted with a Null default; a Mapping insert-or-fetches directly; a
Tagged value recurses into its inner value, but an inner Null reached
through a Tagged wrapper faults rather than vivifying, as does any
other non-Mapping inner value. -/
theorem c4_key_write_untagged_rules :
    (∀ k, indexOrInsertKey k .null = .ok (.mapping [(k, .null)], [.key k]))
    ∧ (∀ k m, indexOrInsertKey k (.mapping m)
        = .ok (.mapping (orInsert m k .null), [.key k]))
    ∧ (∀ k t w, indexOrInsertKey k (.tagged t w)
        = match indexOrInsertKeyLoop k w with
          | .ok (w', p) => .ok (.tagged t w', .inner :: p)
          | .error e => .error e)
    ∧ (∀ k t m, indexOrInsertKey k (.tagged t (.mapping m))
        = .ok (.tagged t (.mapping (orInsert m k .null)), [.inner, .key k]))
    ∧ (∀ k t, indexOrInsertKey k (.tagged t .null)
        = .error (.cannotIndexKey k "null"))
    ∧ (∀ k v, isScalar v = true → v ≠ .null →
        indexOrInsertKey k v = .error (.cannotIndexKey k (typeName v))) := by
  refine ⟨?_, ?_, ?_, ?_, ?_, ?_⟩
  · intro k
    simp [indexOrInsertKey, orInsert, containsKey]
  · intro k m
    simp [indexOrInsertKey, indexOrInsertKeyLoop]
  · intro k t w
    simp [indexOrInsertKey, indexOrInsertKeyLoop]
  · intro k t m
    simp [indexOrInsertKey, indexOrInsertKeyLoop]
  · intro k t
    simp [indexOrInsertKey, indexOrInsertKeyLoop, typeName]
  · intro k v hsc hnn
    cases v <;> simp [isScalar] at hsc <;> simp at hnn <;>
      simp [indexOrInsertKey, indexOrInsertKeyLoop, typeName]

/-- Witness for C4: the scalar-fault hypothesis holds for a boolean. -/
theorem c4_key_write_untagged_rules_witness :
    indexOrInsertKey (Value.str "a") (Value.bool true)
      = .error (.cannotIndexKey (Value.str "a") "boolean") :=
  c4_key_write_untagged_rules.2.2.2.2.2 _ _ (by simp [isScalar]) (by simp)

/-- C5: a positional bracket-write on a Sequence returns the element
in place when the index is within bounds (the value is unchanged, the
returned slot is position `i`, and the slot holds element `i`), and
faults with the index-out-of-bounds usage fault otherwise — the
sequence is never grown; writing index 5 into a 2-element sequence
faults with exactly that fault. -/
theorem c5_usize_write_in_bounds_or_fault :
    (∀ xs i, i < xs.length →
      indexOrInsertUsize i (.sequence xs) = .ok (.sequence xs, [.idx i])
        ∧ getPath (.sequence xs) [.idx i] = xs[i]?)
    ∧ (∀ xs i, xs.length ≤ i →
      indexOrInsertUsize i (.sequence xs)
        = .error (.indexOutOfBounds i xs.length))
    ∧ indexOrInsertUsize 5 (.sequence [.null, .null])
        = .error (.indexOutOfBounds 5 2) := by
  refine ⟨?_, ?_, by rfl⟩
  · intro xs i h
    refine ⟨by simp [indexOrInsertUsize, h], ?_⟩
    rcases hx : xs[i]? with _ | w <;> simp [getPath, hx]
  · intro xs i h
    simp [indexOrInsertUsize, Nat.not_lt.mpr h]

/-- Witness for C5: both bounds hypotheses are satisfiable on a
2-element sequence. -/
theorem c5_usize_write_in_bounds_or_fault_witness :
    (indexOrInsertUsize 1 (.sequence [Value.null, Value.bool true])
      = .ok (.sequence [Value.null, Value.bool true], [.idx 1])
      ∧ getPath (.sequence [Value.null, Value.bool true]) [.idx 1]
        = [Value.null, Value.bool true][1]?)
    ∧ indexOrInsertUsize 5 (.sequence [Value.null, Value.bool true])
      = .error (.indexOutOfBounds 5 2) :=
  ⟨c5_usize_write_in_bounds_or_fault.1 _ 1 (by simp),
   c5_usize_write_in_bounds_or_fault.2.1 _ 5 (by simp)⟩

/-- C6: starting from Null, the chained bracket-write
`data["a"]["b"]["c"] = "x"` vivifies nested Mappings three levels deep
with the string leaf `"x"` at path a.b.c; and when a sibling key
already exists along the way it is preserved (second conjunct: the
pre-existing entry `z` of the mapping at `a` survives). -/
theorem c6_chained_write_vivifies :
    writeChain .null [.str "a", .str "b", .str "c"] (.str "x")
      = .ok (.mapping [(.str "a",
          .mapping [(.str "b", .mapping [(.str "c", .str "x")])])])
    ∧ writeChain (.mapping [(.str "a",
          .mapping [(.str "z", .number (.posInt 1))])])
        [.str "a", .str "b", .str "c"] (.str "x")
      = .ok (.mapping [(.str "a",
          .mapping [(.str "z", .number (.posInt 1)),
            (.str "b", .mapping [(.str "c", .str "x")])])]) := by
  constructor <;>
    simp [writeChain, writeChain.go, chainStep, getPath, setPath,
      indexOrInsertKey, indexOrInsertKeyLoop, orInsert, containsKey, mapGet,
      mapSet, valueEq, typeName]

/-- C7: read-side lookups (`get`/`get_mut` share the same rules)
never fault: every mismatch between index kind and value variant, a
missing key, or a position past the end yields an absent option, and
the bracket-read sugar then yields the shared `Value::Null` constant;
when the lookup finds a value, bracket-read returns it unchanged. -/
theorem c7_reads_never_fault :
    (∀ v i xs, untagRef v = .sequence xs → xs.length ≤ i →
      indexIntoUsize i v = none ∧ bracketReadUsize i v = .null)
    ∧ (∀ v i m, untagRef v = .mapping m →
        mapGet m (.number (.posInt i)) = none →
        indexIntoUsize i v = none ∧ bracketReadUsize i v = .null)
    ∧ (∀ v i, isScalar (untagRef v) = true →
        indexIntoUsize i v = none ∧ bracketReadUsize i v = .null)
    ∧ (∀ v k m, untagRef v = .mapping m → mapGet m k = none →
        indexIntoKey k v = none ∧ bracketReadKey k v = .null)
    ∧ (∀ v k, isScalar (untagRef v) = true ∨ (∃ xs, untagRef v = .sequence xs) →
        indexIntoKey k v = none ∧ bracketReadKey k v = .null)
    ∧ (∀ v i w, indexIntoUsize i v = some w → bracketReadUsize i v = w)
    ∧ (∀ v k w, indexIntoKey k v = some w → bracketReadKey k v = w) := by
  refine ⟨?_, ?_, ?_, ?_, ?_, ?_, ?_⟩
  · intro v i xs h hlen
    simp [indexIntoUsize, bracketReadUsize, h, List.getElem?_eq_none hlen]
  · intro v i m h hget
    simp [indexIntoUsize, bracketReadUsize, h, hget]
  · intro v i h
    cases huv : untagRef v <;> rw [huv] at h <;> simp [isScalar] at h <;>
      simp [indexIntoUsize, bracketReadUsize, huv]
  · intro v k m h hget
    simp [indexIntoKey, bracketReadKey, h, hget]
  · intro v k h
    rcases h with h | ⟨xs, h⟩
    · cases huv : untagRef v <;> rw [huv] at h <;> simp [isScalar] at h <;>
        simp [indexIntoKey, bracketReadKey, huv]
    · simp [indexIntoKey, bracketReadKey, h]
  · intro v i w h
    simp [bracketReadUsize, h]
  · intro v k w h
    simp [bracketReadKey, h]

/-- Witness for C7: the absence hypotheses are satisfiable — an
out-of-range position, a missing key, and a scalar target all read as
Null; a present element is returned unchanged. -/
theorem c7_reads_never_fault_witness :
    (indexIntoUsize 7 (.sequence [Value.bool true]) = none
      ∧ bracketReadUsize 7 (.sequence [Value.bool true]) = .null)
    ∧ (indexIntoKey (.str "missing") (.mapping [(.str "a", .bool true)]) = none
      ∧ bracketReadKey (.str "missing") (.mapping [(.str "a", .bool true)]) = .null)
    ∧ (indexIntoUsize 0 (.bool true) = none
      ∧ bracketReadUsize 0 (.bool true) = .null)
    ∧ bracketReadUsize 0 (.sequence [Value.bool true]) = .bool true :=
  ⟨c7_reads_never_fault.1 _ 7 _ rfl (by simp),
   c7_reads_never_fault.2.2.2.1 _ _ _ rfl (by simp [mapGet, valueEq]),
   c7_reads_never_fault.2.2.1 _ 0 (by simp [untagRef, isScalar]),
   c7_reads_never_fault.2.2.2.2.2.1 _ 0 _ (by simp [indexIntoUsize, untagRef])⟩

/-- Modelled from the spec: narrowing of the opaque Number to a signed
64-bit integer — an unsigned value fits iff it is at most `i64::MAX`,
a negative value is returned as is, a float never narrows to an
integer form. -/
def Number.as_i64 : Number → Option Int
  | .posInt n => if n ≤ 2 ^ 63 - 1 then some n else none
  | .negInt m => some m
  | .float _ => none

/-- Modelled from the spec: narrowing to an unsigned 64-bit integer. -/
def Number.as_u64 : Number → Option Nat
  | .posInt n => some n
  | _ => none

/-- Modelled from the spec and the source doc comment of
`Value::is_f64` ("returns true if and only if both `is_i64` and
`is_u64` return false"): only the float form is *classified* as f64. -/
def Number.is_f64 : Number → Bool
  | .float _ => true
  | _ => false

/-- Modelled from the spec and the source doc comment of
`Value::as_f64` ("if the Value is a number, represent it as f64 if
possible"): every numeric form can be represented as a float, so the
narrowing to the floating form is total on numbers. -/
def Number.as_f64 : Number → Option Rat
  | .posInt n => some n
  | .negInt m => some m
  | .float q => some q

/-- `Value::is_null` (`src/value/mod.rs`). -/
def Value.is_null (self : Value) : Bool :=
  match untagRef self with
  | .null => true
  | _ => false

/-- `Value::as_null`. -/
def Value.as_null (self : Value) : Option Unit :=
  match untagRef self with
  | .null => some ()
  | _ => none

/-- `Value::as_bool`. -/
def Value.as_bool (self : Value) : Option Bool :=
  match untagRef self with
  | .bool b => some b
  | _ => none

/-- `Value::is_bool`. -/
def Value.is_bool (self : Value) : Bool :=
  self.as_bool.isSome

/-- `Value::is_number`. -/
def Value.is_number (self : Value) : Bool :=
  match untagRef self with
  | .number _ => true
  | _ => false

/-- `Value::as_i64`. -/
def Value.as_i64 (self : Value) : Option Int :=
  match untagRef self with
  | .number n => n.as_i64
  | _ => none

/-- `Value::is_i64`. -/
def Value.is_i64 (self : Value) : Bool :=
  self.as_i64.isSome

/-- `Value::as_u64`. -/
def Value.as_u64 (self : Value) : Option Nat :=
  match untagRef self with
  | .number n => n.as_u64
  | _ => none

/-- `Value::is_u64`. -/
def Value.is_u64 (self : Value) : Bool :=
  self.as_u64.isSome

/-- `Value::is_f64` — unlike the other predicates it is not defined as
presence of the extractor but delegates to the Number classification. -/
def Value.is_f64 (self : Value) : Bool :=
  match untagRef self with
  | .number n => n.is_f64
  | _ => false

/-- `Value::as_f64`. -/
def Value.as_f64 (self : Value) : Option Rat :=
  match untagRef self with
  | .number n => n.as_f64
  | _ => none

/-- `Value::as_str`. -/
def Value.as_str (self : Value) : Option String :=
  match untagRef self with
  | .str s => some s
  | _ => none

/-- `Value::is_string`. -/
def Value.is_string (self : Value) : Bool :=
  self.as_str.isSome

/-- `Value::as_sequence` (the `_mut` variant returns the same payload
mutably under identical rules). -/
def Value.as_sequence (self : Value) : Option Sequence :=
  match untagRef self with
  | .sequence xs => some xs
  | _ => none

/-- `Value::is_sequence`. -/
def Value.is_sequence (self : Value) : Bool :=
  self.as_sequence.isSome

/-- `Value::as_mapping` (the `_mut` variant is identical modulo
mutability). -/
def Value.as_mapping (self : Value) : Option Mapping :=
  match untagRef self with
  | .mapping m => some m
  | _ => none

/-- `Value::is_mapping`. -/
def Value.is_mapping (self : Value) : Bool :=
  self.as_mapping.isSome

/-- C8 counterexample: the f64 predicate/extractor pair is not an
equivalence — an integer number is not classified f64 (`is_f64` is
false) yet `as_f64` still represents it, so
`is_f64(v) == as_f64(v).is_some()` fails at `v = 5`. -/
theorem c8_f64_pair_mismatch :
    Value.is_f64 (.number (.posInt 5)) = false
    ∧ (Value.as_f64 (.number (.posInt 5))).isSome = true :=
  ⟨rfl, rfl⟩

/-- C8 (amended): for every exposed predicate/extractor pair other
than f64 — null, bool, number (predicate only), i64, u64, str,
sequence, mapping — the extractor is present exactly when the untagged
form matches, and the predicate agrees with the extractor's presence.
For the f64 pair only the forward direction holds: `is_f64` implies
`as_f64` is present, but `as_f64` is present for every number
(integers are representable as floats), so the equivalence fails on
integer numbers. -/
theorem c8_predicate_extractor_pairs :
    (∀ v, Value.is_null v = (Value.as_null v).isSome
      ∧ (Value.as_null v = some () ↔ untagRef v = .null))
    ∧ (∀ v, Value.is_bool v = (Value.as_bool v).isSome
      ∧ ∀ b, Value.as_bool v = some b ↔ untagRef v = .bool b)
    ∧ (∀ v, Value.is_number v = true ↔ ∃ n, untagRef v = .number n)
    ∧ (∀ v, Value.is_i64 v = (Value.as_i64 v).isSome)
    ∧ (∀ v n, untagRef v = .number n → Value.as_i64 v = n.as_i64)
    ∧ (∀ v, Value.is_u64 v = (Value.as_u64 v).isSome)
    ∧ (∀ v n, untagRef v = .number n → Value.as_u64 v = n.as_u64)
    ∧ (∀ v, Value.is_string v = (Value.as_str v).isSome
      ∧ ∀ s, Value.as_str v = some s ↔ untagRef v = .str s)
    ∧ (∀ v, Value.is_sequence v = (Value.as_sequence v).isSome
      ∧ ∀ xs, Value.as_sequence v = some xs ↔ untagRef v = .sequence xs)
    ∧ (∀ v, Value.is_mapping v = (Value.as_mapping v).isSome
      ∧ ∀ m, Value.as_mapping v = some m ↔ untagRef v = .mapping m)
    ∧ (∀ v, Value.is_f64 v = true → (Value.as_f64 v).isSome = true)
    ∧ (∀ v, (Value.as_f64 v).isSome = true ↔ ∃ n, untagRef v = .number n) := by
  refine ⟨?_, ?_, ?_, ?_, ?_, ?_, ?_, ?_, ?_, ?_, ?_, ?_⟩
  · intro v
    cases huv : untagRef v <;> simp [Value.is_null, Value.as_null, huv]
  · intro v
    cases huv : untagRef v <;> simp [Value.is_bool, Value.as_bool, huv]
  · intro v
    cases huv : untagRef v <;> simp [Value.is_number, huv]
  · intro v
    simp [Value.is_i64]
  · intro v n huv
    simp [Value.as_i64, huv]
  · intro v
    simp [Value.is_u64]
  · intro v n huv
    simp [Value.as_u64, huv]
  · intro v
    cases huv : untagRef v <;> simp [Value.is_string, Value.as_str, huv]
  · intro v
    cases huv : untagRef v <;> simp [Value.is_sequence, Value.as_sequence, huv]
  · intro v
    cases huv : untagRef v <;> simp [Value.is_mapping, Value.as_mapping, huv]
  · intro v h
    simp only [Value.is_f64] at h
    cases huv : untagRef v <;> (rw [huv] at h; try simp at h)
    case number n =>
      simp [Value.as_f64, huv]
      cases n <;> (simp [Number.is_f64] at h; try simp [Number.as_f64])
  · intro v
    cases huv : untagRef v <;> simp [Value.as_f64, huv]
    case number n => cases n <;> simp [Number.as_f64]

/-- Witness for C8: a float number satisfies the f64 forward
implication, and the untagged-form hypotheses are satisfiable. -/
theorem c8_predicate_extractor_pairs_witness :
    (Value.as_f64 (.number (.float (3 : Rat)))).isSome = true
    ∧ Value.as_i64 (.number (.negInt (-2))) = Number.as_i64 (.negInt (-2)) :=
  ⟨c8_predicate_extractor_pairs.2.2.2.2.2.2.2.2.2.2.1 _ rfl,
   c8_predicate_extractor_pairs.2.2.2.2.1 _ _ rfl⟩

/-- `mem::discriminant` of a `Value`, numbered in source order. -/
def discriminant : Value → Nat
  | .null => 0
  | .bool _ => 1
  | .number _ => 2
  | .str _ => 3
  | .sequence _ => 4
  | .mapping _ => 5
  | .tagged _ _ => 6

/-- Primitive data fed to the hasher, in order. -/
inductive HToken where
  | disc (n : Nat)
  | hbool (b : Bool)
  | hnat (n : Nat)
  | hint (i : Int)
  | hrat (q : Rat)
  | hstr (s : String)
  | hlen (n : Nat)
deriving Repr

/-- Modelled from the spec: the data the opaque Number feeds to the
hasher (owned by the Number collaborator). -/
def numberHashTokens : Number → List HToken
  | .posInt n => [.hnat n]
  | .negInt m => [.hint m]
  | .float q => [.hrat q]

mutual

/-- `impl Hash for Value` (`src/value/mod.rs`), as the stream of
primitive data fed to the hasher: first the variant discriminant,
then the payload's own hash data.  Payload hashing of the external
containers is modelled from the spec (length-prefixed elementwise
streams); the Tagged payload hashes its tag and inner value, per the
spec's "compare/hash by (tag, inner value)". -/
def hashTokens : Value → List HToken
  | .null => [.disc 0]
  | .bool b => [.disc 1, .hbool b]
  | .number n => .disc 2 :: numberHashTokens n
  | .str s => [.disc 3, .hstr s]
  | .sequence xs => .disc 4 :: .hlen xs.length :: hashTokensL xs
  | .mapping m => .disc 5 :: .hlen m.length :: hashTokensP m
  | .tagged t w => .disc 6 :: .hstr t :: hashTokens w
termination_by v => sizeOf v
decreasing_by all_goals (simp_wf; try omega)

/-- Hash data of a list of values, elementwise. -/
def hashTokensL : List Value → List HToken
  | [] => []
  | x :: xs => hashTokens x ++ hashTokensL xs
termination_by xs => sizeOf xs
decreasing_by all_goals (simp_wf; try omega)

/-- Hash data of a list of entries, keys and values interleaved. -/
def hashTokensP : Mapping → List HToken
  | [] => []
  | (k, v) :: ps => hashTokens k ++ hashTokens v ++ hashTokensP ps
termination_by ps => sizeOf ps
decreasing_by all_goals (simp_wf; try omega)

end

theorem untagRef_ne_tagged (v : Value) : ∀ t w, untagRef v ≠ .tagged t w := by
  refine untagRef.induct (fun v => ∀ t w, untagRef v ≠ .tagged t w) ?_ ?_ v
  · intro tag w ih
    simpa [untagRef] using ih
  · intro v hv t w
    cases v <;> simp [untagRef]
    case tagged tag inner => exact fun _ => hv tag inner rfl

theorem hashTokens_head (v : Value) :
    (hashTokens v).head? = some (.disc (discriminant v)) := by
  cases v <;> simp [hashTokens, discriminant]

theorem discriminant_untagRef_ne (v : Value) :
    discriminant (untagRef v) ≠ 6 := by
  intro h
  have := untagRef_ne_tagged v
  cases huv : untagRef v <;> rw [huv] at h <;> simp [discriminant] at h
  case tagged t w => exact this t w huv

/-- C9: equality and hashing are variant-discriminant-aware.  Equal
values have equal discriminants; scalar and tagged payloads compare
within the same variant only (a Tagged pair compares by tag and inner
value); a Tagged value is never equal to its untagged inner value, and
its hash stream differs from the untagged inner value's by
construction (the leading discriminant token).  Equality and hashing
are defined by `valueEq`/`hashTokens` directly on the variants — the
`untagRef` helper appears in neither, only in the extraction paths. -/
theorem c9_eq_hash_discriminant_aware :
    (∀ v w, valueEq v w = true → discriminant v = discriminant w)
    ∧ (∀ a b, valueEq (.bool a) (.bool b) = (a == b))
    ∧ (∀ a b, valueEq (.number a) (.number b) = numberEq a b)
    ∧ (∀ a b, valueEq (.str a) (.str b) = (a == b))
    ∧ (∀ t a u b, valueEq (.tagged t a) (.tagged u b)
        = ((t == u) && valueEq a b))
    ∧ (∀ t v, valueEq (.tagged t v) (untagRef (.tagged t v)) = false)
    ∧ (∀ t v, hashTokens (.tagged t v) ≠ hashTokens (untagRef (.tagged t v))) := by
  refine ⟨?_, ?_, ?_, ?_, ?_, ?_, ?_⟩
  · intro v w h
    cases v <;> cases w <;> (try simp [valueEq] at h) <;> simp [discriminant]
  · intro a b
    simp [valueEq]
  · intro a b
    simp [valueEq]
  · intro a b
    simp [valueEq]
  · intro t a u b
    simp [valueEq]
  · intro t v
    simp only [untagRef]
    cases huv : untagRef v <;> simp [valueEq]
    case tagged tag w => exact absurd huv (untagRef_ne_tagged v tag w)
  · intro t v h
    have h1 := congrArg List.head? h
    rw [hashTokens_head, hashTokens_head] at h1
    simp [discriminant] at h1
    exact discriminant_untagRef_ne (.tagged t v) h1.symm

/-- Witness for C9: the discriminant-agreement hypothesis is
satisfiable — two equal booleans have equal discriminants. -/
theorem c9_eq_hash_discriminant_aware_witness :
    discriminant (.bool true) = discriminant (.bool true) :=
  c9_eq_hash_discriminant_aware.1 (.bool true) (.bool true) (by simp [valueEq])
